import Mathlib

/-!
Verification of the file-management subsystem of the signalk-mydata-plugin
Signal K server plugin (src/index.js).  The JavaScript handlers are embedded
shallowly: Node's posix `path` functions are modelled over segment lists and
character lists, the server-side filesystem as an inductive tree, Node
`Buffer` UTF-8/base64 codecs as executable functions on byte lists, and each
HTTP handler as a pure function from its inputs (and the filesystem) to a
typed result (and the updated filesystem).
-/

namespace MyData

/-! ### Node posix path model

`path.resolve`, `String.prototype.split`, `replace` and `startsWith` as used
by `safeJoin` (src/index.js lines 280-289).  A path is resolved by splitting
on the separator and folding `.`/`..`/empty segments away, clamped at the
filesystem root, exactly as Node's posix resolver does for an absolute base.
-/

/-- Split a character list on the slash character (JS `str.split('/')`). -/
def splitCharsAux : List Char → List Char → List (List Char)
  | [], cur => [cur.reverse]
  | c :: cs, cur =>
    if c = '/' then cur.reverse :: splitCharsAux cs [] else splitCharsAux cs (c :: cur)

/-- JS `s.split('/')` on a string. -/
def splitSlash (s : String) : List String :=
  (splitCharsAux s.data []).map String.mk

/-- JS `rel.replace(/\\/g, '/')`: every backslash becomes a slash. -/
def backslashToSlash (s : String) : String :=
  String.mk (s.data.map (fun c => if c = '\\' then '/' else c))

/-- JS `r.replace(/^\/+/, '')`: strip all leading slashes. -/
def stripLeadingSlashes (s : String) : String :=
  String.mk (s.data.dropWhile (fun c => c = '/'))

/-- One step of posix path normalisation for an absolute path: empty and `.`
segments are dropped, `..` pops the last segment (clamped at the root). -/
def resolveStep (acc : List String) (s : String) : List String :=
  if s = "" ∨ s = "." then acc
  else if s = ".." then acc.dropLast
  else acc ++ [s]

/-- Normalised segment list of an absolute posix path built from raw
segments, as computed by Node `path.resolve`. -/
def resolveSegs (l : List String) : List String :=
  l.foldl resolveStep []

/-- Character rendering of an absolute path from its normalised segments. -/
def absData (l : List String) : List Char :=
  l.flatMap (fun s => '/' :: s.data)

/-- String rendering of an absolute path from its normalised segments
(the empty segment list renders as the filesystem root `/`). -/
def renderAbs (l : List String) : String :=
  if l = [] then "/" else String.mk (absData l)

/-- Normalised segments of `path.resolve(root)` for an absolute `root`. -/
def rootSegs (root : String) : List String :=
  resolveSegs (splitSlash root)

/-- Normalised segments of `path.resolve(root, cleaned)` where `cleaned` is
the client path with backslashes normalised and leading slashes stripped, as
in `safeJoin`. -/
def absSegs (root rel : String) : List String :=
  resolveSegs (splitSlash root ++ splitSlash (stripLeadingSlashes (backslashToSlash rel)))

/-- JS `s.startsWith(p)` (UTF-16 details are irrelevant for the paths at
hand; characters stand for code units). -/
def jsStartsWith (s p : String) : Bool :=
  p.data.isPrefixOf s.data

/-- `safeJoin(root, rel)` from src/index.js lines 280-289: normalise
backslashes, force the path relative by stripping leading slashes, resolve
against the root, and fail (`throw`, modelled as `none`) unless the result
equals the resolved root or extends it past a separator. -/
def safeJoin (root rel : String) : Option String :=
  let full := renderAbs (absSegs root rel)
  let rootFull := renderAbs (rootSegs root)
  if jsStartsWith full (rootFull ++ "/") ∨ full = rootFull then some full else none

/-- Segments of an already-normalised absolute path string, as the OS kernel
parses the path a handler passes to the filesystem. -/
def pathSegs (s : String) : List String :=
  (splitSlash s).filter (fun x => x ≠ "")

/-! ### Root registry (src/index.js lines 236-245 and 291-294) -/

/-- A configured file root: `{ id, label, path }`. -/
structure FileRoot where
  id : String
  label : String
  path : String
deriving DecidableEq

/-- `resolveRoot(rootId)` from src/index.js lines 291-294: a missing (or
empty, hence falsy) id yields the first configured root; otherwise the root
with matching id, falling back to the first root when none matches.  `none`
models the `undefined` produced when no roots exist at all. -/
def resolveRoot (roots : List FileRoot) (rootId : Option String) : Option FileRoot :=
  match rootId with
  | none => roots.head?
  | some rid =>
    if rid = "" then roots.head?
    else
      match roots.find? (fun r => r.id = rid) with
      | some r => some r
      | none => roots.head?

/-! ### Filesystem model

The server-side tree reachable from the filesystem root `/`.  Handlers
address nodes by the parsed segment list of the absolute path they obtained
from `safeJoin`.  Timestamps are not modelled (no claim concerns `mtime`).
-/

/-- A filesystem node: a regular file with its byte content, or a directory
with named children in OS enumeration order. -/
inductive FsNode where
  | file (data : List Nat)
  | dir (children : List (String × FsNode))

/-- Find a directory entry by name. -/
def findChild : List (String × FsNode) → String → Option FsNode
  | [], _ => none
  | (n, c) :: rest, s => if n = s then some c else findChild rest s

/-- Replace the entry named `s` (or append it when absent). -/
def upsertChild : List (String × FsNode) → String → FsNode → List (String × FsNode)
  | [], s, c2 => [(s, c2)]
  | (n, c) :: rest, s, c2 =>
    if n = s then (n, c2) :: rest else (n, c) :: upsertChild rest s c2

/-- Remove the entry named `s`. -/
def removeChild : List (String × FsNode) → String → List (String × FsNode)
  | [], _ => []
  | (n, c) :: rest, s => if n = s then rest else (n, c) :: removeChild rest s

/-- Resolve a segment path to a node (models `fsp.stat`/`open` succeeding). -/
def FsNode.lookup : FsNode → List String → Option FsNode
  | n, [] => some n
  | FsNode.file _, _ :: _ => none
  | FsNode.dir cs, s :: rest =>
    match findChild cs s with
    | some c => FsNode.lookup c rest
    | none => none

/-- `fsp.mkdir(p, { recursive: true })` (`ensureDir` in src/index.js line
297): create the directory and every missing ancestor; fails when any
component on the way (the target included) exists as a regular file. -/
def FsNode.ensureDirP : FsNode → List String → Option FsNode
  | FsNode.file _, _ => none
  | FsNode.dir cs, [] => some (FsNode.dir cs)
  | FsNode.dir cs, s :: rest =>
    match FsNode.ensureDirP ((findChild cs s).getD (FsNode.dir [])) rest with
    | some c2 => some (FsNode.dir (upsertChild cs s c2))
    | none => none

/-- `fsp.writeFile(p, data)` / `fs.createWriteStream(p)`: create or
overwrite the file at `p`; fails when `p` is a directory, when a parent is
missing, or when a path component is a regular file. -/
def FsNode.writeFileAt : FsNode → List String → List Nat → Option FsNode
  | FsNode.file _, [], d => some (FsNode.file d)
  | FsNode.dir _, [], _ => none
  | FsNode.file _, _ :: _, _ => none
  | FsNode.dir cs, [s], d =>
    match findChild cs s with
    | some (FsNode.dir _) => none
    | some (FsNode.file _) => some (FsNode.dir (upsertChild cs s (FsNode.file d)))
    | none => some (FsNode.dir (cs ++ [(s, FsNode.file d)]))
  | FsNode.dir cs, s :: rest, d =>
    match findChild cs s with
    | some c =>
      match FsNode.writeFileAt c rest d with
      | some c2 => some (FsNode.dir (upsertChild cs s c2))
      | none => none
    | none => none

/-- `fsp.rmdir` / `fsp.unlink`: drop the single entry addressed by the
path.  No recursion: only the named entry is removed. -/
def FsNode.eraseAt : FsNode → List String → FsNode
  | n, [] => n
  | FsNode.file d, _ :: _ => FsNode.file d
  | FsNode.dir cs, [s] => FsNode.dir (removeChild cs s)
  | FsNode.dir cs, s :: rest =>
    match findChild cs s with
    | some c => FsNode.dir (upsertChild cs s (FsNode.eraseAt c rest))
    | none => FsNode.dir cs

/-! ### Node Buffer codecs

`Buffer.from(content, 'utf8')` / `buf.toString('utf8')` and the base64
codecs, executable over byte lists.  UTF-8 encoding follows the scalar-value
ranges; decoding validates leads, continuations, overlong forms and
surrogates, which is exact on every byte list produced by the encoder (the
only inputs the round-trip claims touch).
-/

/-- UTF-8 encoding of one Unicode scalar value. -/
def utf8EncodeCharNat (n : Nat) : List Nat :=
  if n < 128 then [n]
  else if n < 2048 then [192 + n / 64, 128 + n % 64]
  else if n < 65536 then [224 + n / 4096, 128 + (n / 64) % 64, 128 + n % 64]
  else [240 + n / 262144, 128 + (n / 4096) % 64, 128 + (n / 64) % 64, 128 + n % 64]

/-- `Buffer.from(s, 'utf8')` as a byte list. -/
def utf8Bytes (s : String) : List Nat :=
  s.data.flatMap (fun c => utf8EncodeCharNat c.toNat)

/-- Strict UTF-8 decoding of the first scalar value of a byte list,
returning the character and the remaining bytes. -/
def utf8DecodeOne (bs : List Nat) : Option (Char × List Nat) :=
  match bs with
  | [] => none
  | b :: rest =>
    if b < 128 then some (Char.ofNat b, rest)
    else if b < 194 then none
    else if b < 224 then
      match rest with
      | b1 :: rest1 =>
        if 128 ≤ b1 ∧ b1 < 192 then
          some (Char.ofNat ((b - 192) * 64 + (b1 - 128)), rest1)
        else none
      | [] => none
    else if b < 240 then
      match rest with
      | b1 :: b2 :: rest2 =>
        if 128 ≤ b1 ∧ b1 < 192 ∧ 128 ≤ b2 ∧ b2 < 192 then
          let n := (b - 224) * 4096 + (b1 - 128) * 64 + (b2 - 128)
          if 2048 ≤ n ∧ (n < 55296 ∨ 57343 < n) then some (Char.ofNat n, rest2) else none
        else none
      | _ => none
    else if b < 245 then
      match rest with
      | b1 :: b2 :: b3 :: rest3 =>
        if 128 ≤ b1 ∧ b1 < 192 ∧ 128 ≤ b2 ∧ b2 < 192 ∧ 128 ≤ b3 ∧ b3 < 192 then
          let n := (b - 240) * 262144 + (b1 - 128) * 4096 + (b2 - 128) * 64 + (b3 - 128)
          if 65536 ≤ n ∧ n < 1114112 then some (Char.ofNat n, rest3) else none
        else none
      | _ => none
    else none

/-- Strict UTF-8 decoding of a byte list, fueled by the list length (each
step consumes at least one byte, so the fuel never runs out on the
designated length). -/
def utf8DecodeListAux : Nat → List Nat → Option (List Char)
  | _, [] => some []
  | 0, _ :: _ => none
  | fuel + 1, b :: tl =>
    match utf8DecodeOne (b :: tl) with
    | none => none
    | some (c, rest) => (utf8DecodeListAux fuel rest).map (fun cs => c :: cs)

/-- Strict UTF-8 decoding of a byte list into characters. -/
def utf8DecodeList (bs : List Nat) : Option (List Char) :=
  utf8DecodeListAux bs.length bs

/-- `buf.toString('utf8')`.  Node substitutes replacement characters on
invalid input; the model collapses that lossy case to a single replacement
character, which no claim exercises (every claim decodes encoder output). -/
def bufToUtf8 (bs : List Nat) : String :=
  match utf8DecodeList bs with
  | some cs => String.mk cs
  | none => String.mk [Char.ofNat 65533]

/-- The base64 alphabet. -/
def b64Chars : List Char :=
  "ABCDEFGHIJKLMNOPQRSTUVWXYZabcdefghijklmnopqrstuvwxyz0123456789+/".data

/-- Index of a character in the base64 alphabet. -/
def b64Index (c : Char) : Option Nat :=
  b64Chars.findIdx? (fun x => x = c)

/-- Reassemble bytes from 6-bit groups (trailing lone sextet dropped, as
Node does). -/
def b64Group : List Nat → List Nat
  | s0 :: s1 :: s2 :: s3 :: rest =>
    (s0 * 4 + s1 / 16) :: ((s1 % 16) * 16 + s2 / 4) :: ((s2 % 4) * 64 + s3) :: b64Group rest
  | [s0, s1, s2] => [s0 * 4 + s1 / 16, (s1 % 16) * 16 + s2 / 4]
  | [s0, s1] => [s0 * 4 + s1 / 16]
  | _ => []

/-- `Buffer.from(content, 'base64')`: non-alphabet characters (padding
included) are ignored, then sextets are packed into bytes. -/
def base64DecodeStr (content : String) : List Nat :=
  b64Group (content.data.filterMap b64Index)

/-- Character at an index of the base64 alphabet. -/
def b64CharAt (n : Nat) : Char :=
  b64Chars.getD n 'A'

/-- `buf.toString('base64')` with standard padding. -/
def base64EncodeBytes : List Nat → List Char
  | b0 :: b1 :: b2 :: rest =>
    b64CharAt (b0 / 4) :: b64CharAt ((b0 % 4) * 16 + b1 / 16) ::
      b64CharAt ((b1 % 16) * 4 + b2 / 64) :: b64CharAt (b2 % 64) :: base64EncodeBytes rest
  | [b0, b1] => [b64CharAt (b0 / 4), b64CharAt ((b0 % 4) * 16 + b1 / 16), b64CharAt ((b1 % 16) * 4), '=']
  | [b0] => [b64CharAt (b0 / 4), b64CharAt ((b0 % 4) * 16), '=', '=']
  | [] => []

/-- `buf.toString('base64')` as a string. -/
def base64EncodeStr (bs : List Nat) : String :=
  String.mk (base64EncodeBytes bs)

/-! ### Classification tables and `path.extname` (src/index.js lines 251-277) -/

/-- `TEXT_EXTS`: extensions previewed inline as text. -/
def TEXT_EXTS : List String :=
  [".txt", ".log", ".md", ".json", ".geojson", ".gpx", ".kml", ".csv", ".xml",
   ".yaml", ".yml"]

/-- `MIME_MAP`: extension to MIME type. -/
def MIME_MAP : List (String × String) :=
  [(".txt", "text/plain"), (".log", "text/plain"), (".md", "text/markdown"),
   (".json", "application/json"), (".geojson", "application/geo+json"),
   (".gpx", "application/gpx+xml"), (".kml", "application/vnd.google-earth.kml+xml"),
   (".csv", "text/csv"), (".xml", "application/xml"), (".yaml", "application/yaml"),
   (".yml", "application/yaml"), (".png", "image/png"), (".jpg", "image/jpeg"),
   (".jpeg", "image/jpeg"), (".gif", "image/gif"), (".webp", "image/webp"),
   (".svg", "image/svg+xml"), (".pdf", "application/pdf"), (".mp3", "audio/mpeg"),
   (".wav", "audio/wav"), (".ogg", "audio/ogg"), (".mp4", "video/mp4"),
   (".webm", "video/webm")]

/-- `MIME_MAP[ext] || 'application/octet-stream'`. -/
def mimeFor (ext : String) : String :=
  (MIME_MAP.lookup ext).getD "application/octet-stream"

/-- Node posix `path.basename`: last non-empty segment ('' when none). -/
def basenameStr (s : String) : String :=
  (((splitSlash s).filter (fun x => x ≠ "")).getLast?).getD ""

/-- Node posix `path.extname`: suffix of the basename from its last dot,
empty for dotfiles, `.` and `..`. -/
def extname (p : String) : String :=
  let base := (basenameStr p).data
  if base = ['.', '.'] then ""
  else
    let tailLen := (base.reverse.takeWhile (fun c => c ≠ '.')).length
    if tailLen = base.length then ""
    else
      let i := base.length - tailLen - 1
      if i = 0 then "" else String.mk (base.drop i)

/-- JS `String.prototype.toLowerCase` (ASCII range, as the extension
table requires). -/
def jsToLower (s : String) : String :=
  String.mk (s.data.map Char.toLower)

/-! ### Handler result types -/

/-- The error responses the handlers produce (all serialised as
`{ok:false, error}` with a 4xx/5xx status by the HTTP layer). -/
inductive ApiError where
  | missingPath
  | pathTraversal
  | notFound
  | notAFile
  | fileTooLarge
  | dirNotEmpty
  | ioError
deriving DecidableEq

/-- A successful `/files/read` response body. -/
inductive ReadOk where
  | metaOnly (size : Nat) (mime : String)
  | previewable (size : Nat) (mime : String) (dataB64 : String)
  | text (size : Nat) (mime : String) (payload : String)
deriving DecidableEq

/-- The `type` field of a listing entry: `'dir'` or `'file'`. -/
inductive EntryType where
  | dir
  | file
deriving DecidableEq

/-- A directory entry as produced by `statToEntry` (src/index.js lines
302-309); `mtime` is carried but never populated by the model. -/
structure Entry where
  name : String
  type : EntryType
  size : Option Nat
  mtime : Option String
deriving DecidableEq

/-- `statToEntry(name, st)`: kind, size for files, no size for directories. -/
def statToEntry (name : String) (st : FsNode) : Entry :=
  match st with
  | FsNode.dir _ => ⟨name, EntryType.dir, none, none⟩
  | FsNode.file d => ⟨name, EntryType.file, some d.length, none⟩

/-- The comparator of src/index.js line 324, parametric in the host
`localeCompare` collation `nameCmp` (negative/zero/positive convention):
entries of equal kind compare by name, otherwise directories come first. -/
def entryCmp (nameCmp : String → String → Int) (a b : Entry) : Int :=
  if a.type = b.type then nameCmp a.name b.name
  else if a.type = EntryType.dir then -1 else 1

/-- `entries.sort(cmp)` keeps `a` before `b` when the comparator is
non-positive. -/
def entryLe (nameCmp : String → String → Int) (a b : Entry) : Bool :=
  entryCmp nameCmp a b ≤ 0

/-- `entries.sort(...)`: JS `Array.prototype.sort` is a stable sort by the
comparator. -/
def sortEntries (nameCmp : String → String → Int) (es : List Entry) : List Entry :=
  es.mergeSort (entryLe nameCmp)

/-- A code-point collation usable to instantiate `nameCmp`; it agrees with
every `localeCompare` locale on the all-lowercase names the concrete claims
compare. -/
def localeCompareCP (a b : String) : Int :=
  if a < b then -1 else if b < a then 1 else 0

/-! ### HTTP handlers (src/index.js lines 312-516)

Each handler takes the configured roots, the request's root id, the current
filesystem and the request parameters, and returns the typed response (and
the possibly updated filesystem for the mutating ones).  The guard order
follows the JavaScript source line by line.
-/

/-- `GET /files/list` (src/index.js lines 312-329). -/
def filesList (roots : List FileRoot) (rootId : Option String) (fs : FsNode)
    (rel : String) (nameCmp : String → String → Int) :
    Except ApiError (List Entry) × FsNode :=
  match resolveRoot roots rootId with
  | none => (Except.error ApiError.ioError, fs)
  | some root =>
    match safeJoin root.path rel with
    | none => (Except.error ApiError.pathTraversal, fs)
    | some full =>
      match FsNode.ensureDirP fs (pathSegs full) with
      | none => (Except.error ApiError.ioError, fs)
      | some fs1 =>
        match FsNode.lookup fs1 (pathSegs full) with
        | some (FsNode.dir cs) =>
          (Except.ok (sortEntries nameCmp (cs.map (fun nc => statToEntry nc.1 nc.2))), fs1)
        | _ => (Except.error ApiError.ioError, fs1)

/-- `GET /files/read` (src/index.js lines 345-376): missing-path guard,
root resolution, containment, stat, the 5 MiB preview ceiling, then
classification into text / previewable binary / metadata-only binary. -/
def filesRead (roots : List FileRoot) (rootId : Option String) (fs : FsNode)
    (rel : String) : Except ApiError ReadOk :=
  if rel = "" then Except.error ApiError.missingPath
  else
    match resolveRoot roots rootId with
    | none => Except.error ApiError.ioError
    | some root =>
      match safeJoin root.path rel with
      | none => Except.error ApiError.pathTraversal
      | some full =>
        match FsNode.lookup fs (pathSegs full) with
        | none => Except.error ApiError.notFound
        | some (FsNode.dir _) => Except.error ApiError.notAFile
        | some (FsNode.file data) =>
          if data.length > 5 * 1024 * 1024 then Except.error ApiError.fileTooLarge
          else
            let ext := jsToLower (extname full)
            let mime := mimeFor ext
            let isText := TEXT_EXTS.contains ext
            let pv := !isText &&
              (jsStartsWith mime "image/" || jsStartsWith mime "audio/" ||
               jsStartsWith mime "video/" || mime == "application/pdf")
            if !isText && !pv then Except.ok (ReadOk.metaOnly data.length mime)
            else if pv then
              Except.ok (ReadOk.previewable data.length mime (base64EncodeStr data))
            else Except.ok (ReadOk.text data.length mime (bufToUtf8 data))

/-- `POST /files/write` (src/index.js lines 459-478): guards, containment,
`ensureDir` on the parent, then the file is written with the base64-decoded
content exactly when `encoding === 'base64'` and with the UTF-8 bytes of the
content otherwise.  (`content` is modelled as a string; the
`typeof content !== 'string'` guard is therefore always passed.) -/
def filesWrite (roots : List FileRoot) (rootId : Option String) (fs : FsNode)
    (rel : String) (content : String) (encoding : Option String) :
    Except ApiError Unit × FsNode :=
  if rel = "" then (Except.error ApiError.missingPath, fs)
  else
    match resolveRoot roots rootId with
    | none => (Except.error ApiError.ioError, fs)
    | some root =>
      match safeJoin root.path rel with
      | none => (Except.error ApiError.pathTraversal, fs)
      | some full =>
        let data := if encoding = some "base64" then base64DecodeStr content
                    else utf8Bytes content
        match FsNode.ensureDirP fs (pathSegs full).dropLast with
        | none => (Except.error ApiError.ioError, fs)
        | some fs1 =>
          match FsNode.writeFileAt fs1 (pathSegs full) data with
          | some fs2 => (Except.ok (), fs2)
          | none => (Except.error ApiError.ioError, fs1)

/-- `POST /files/delete` (src/index.js lines 498-516): stat the target; a
directory is removed only when `readdir` returns no entries, otherwise the
handler answers `Directory not empty` before touching the tree; a file is
unlinked unconditionally. -/
def filesDelete (roots : List FileRoot) (rootId : Option String) (fs : FsNode)
    (rel : String) : Except ApiError Unit × FsNode :=
  if rel = "" then (Except.error ApiError.missingPath, fs)
  else
    match resolveRoot roots rootId with
    | none => (Except.error ApiError.ioError, fs)
    | some root =>
      match safeJoin root.path rel with
      | none => (Except.error ApiError.pathTraversal, fs)
      | some full =>
        match FsNode.lookup fs (pathSegs full) with
        | none => (Except.error ApiError.notFound, fs)
        | some (FsNode.dir cs) =>
          if cs.length ≠ 0 then (Except.error ApiError.dirNotEmpty, fs)
          else (Except.ok (), FsNode.eraseAt fs (pathSegs full))
        | some (FsNode.file _) => (Except.ok (), FsNode.eraseAt fs (pathSegs full))

/-! ### `POST /files/upload` (src/index.js lines 427-456)

Busboy delivers the multipart events in stream order: `field` events mutate
`dirRel`/`rootId`, each `file` event resolves the destination afresh; when
root resolution, containment or `ensureDir` fails for a part, that part's
stream is drained (`file.resume()`) and the state is left untouched, the
following parts still being processed.  The `finish` handler then answers
`{ok:true, saved}` whatever happened to individual parts. -/

/-- One multipart part. -/
inductive Part where
  | field (name : String) (val : String)
  | filePart (filename : Option String) (data : List Nat)

/-- Mutable per-request upload state. -/
structure UploadState where
  dirRel : String
  rootId : Option String
  saved : List String
  fs : FsNode

/-- One step of posix `path.join` normalisation (keeps leading `..`). -/
def joinStep (acc : List String) (s : String) : List String :=
  if s = "" ∨ s = "." then acc
  else if s = ".." then
    match acc.getLast? with
    | some lastSeg => if lastSeg = ".." then acc ++ [s] else acc.dropLast
    | none => acc ++ [s]
  else acc ++ [s]

/-- Node `path.posix.join(a, b)`. -/
def posixJoin (a b : String) : String :=
  let segs := (splitSlash a ++ splitSlash b).foldl joinStep []
  let body := String.intercalate "/" segs
  if a.data.head? = some '/' then "/" ++ body
  else if segs = [] then "." else body

/-- Process one multipart event against the upload state. -/
def processPart (roots : List FileRoot) (st : UploadState) (p : Part) : UploadState :=
  match p with
  | Part.field name v =>
    let st1 := if name = "dir" then { st with dirRel := v } else st
    if name = "root" then { st1 with rootId := some v } else st1
  | Part.filePart fnameOpt data =>
    let filename := match fnameOpt with
      | some f => if f = "" then "upload.bin" else f
      | none => "upload.bin"
    match resolveRoot roots st.rootId with
    | none => st
    | some root =>
      match safeJoin root.path st.dirRel with
      | none => st
      | some dirFull =>
        match FsNode.ensureDirP st.fs (pathSegs dirFull) with
        | none => st
        | some fs1 =>
          let base := basenameStr filename
          let savedPath := posixJoin (backslashToSlash st.dirRel) base
          let fs2 := (FsNode.writeFileAt fs1 (pathSegs dirFull ++ [base]) data).getD fs1
          { st with fs := fs2, saved := st.saved ++ [savedPath] }

/-- The request-level upload response. -/
structure UploadResult where
  ok : Bool
  saved : List String
deriving DecidableEq

/-- The whole upload request: fold the parts, then the `finish` handler
reports success with the collected `saved` list. -/
def uploadModel (roots : List FileRoot) (parts : List Part) (fs0 : FsNode) :
    UploadResult × FsNode :=
  let st := parts.foldl (processPart roots) ⟨"", none, [], fs0⟩
  (⟨true, st.saved⟩, st.fs)

/-- The code path a file part takes when its destination cannot be resolved
or created: root lookup crashes, `safeJoin` throws, or `ensureDir` rejects
(src/index.js lines 440-449). -/
def uploadDestFails (roots : List FileRoot) (st : UploadState) : Prop :=
  match resolveRoot roots st.rootId with
  | none => True
  | some root =>
    match safeJoin root.path st.dirRel with
    | none => True
    | some dirFull => FsNode.ensureDirP st.fs (pathSegs dirFull) = none

/-! ### `GET /files/download` of a directory (src/index.js lines 386-399)

The handler spawns `zip -r - <base>` and pipes its stdout into the
response; `res.on('close', () => zip.kill('SIGTERM'))` ties the archiver's
lifetime to the client connection.  The subprocess lifecycle is modelled as
a state machine over connection events: the registered `close` listener
fires synchronously on client disconnect and kills a still-running
archiver; a kill on an already finished process is a no-op. -/

/-- Archiver subprocess state. -/
inductive ZipState where
  | running
  | exited
  | killed (signal : String)
deriving DecidableEq

/-- Connection events observable after the handler has set up the pipe. -/
inductive DlEvent where
  | resClose
  | zipExit
deriving DecidableEq

/-- Event dispatch: exactly the listeners the handler registers. -/
def downloadDirStep (z : ZipState) (e : DlEvent) : ZipState :=
  match z, e with
  | ZipState.running, DlEvent.resClose => ZipState.killed "SIGTERM"
  | ZipState.running, DlEvent.zipExit => ZipState.exited
  | z, _ => z

/-- Archiver state after a trace of connection events. -/
def downloadDirRun (events : List DlEvent) : ZipState :=
  events.foldl downloadDirStep ZipState.running

/-! ### Helper lemmas: strings and path segments -/

theorem strMkData (s : String) : String.mk s.data = s := rfl

theorem strEqOfData {s t : String} (h : s.data = t.data) : s = t := by
  cases s
  cases t
  exact congrArg String.mk h

theorem strEmptyOfData {s : String} (h : s.data = []) : s = "" := by
  apply strEqOfData
  simpa using h

theorem isPrefixOf_iff_append {α : Type} [DecidableEq α] :
    ∀ (l₁ l₂ : List α), l₁.isPrefixOf l₂ = true ↔ ∃ t, l₂ = l₁ ++ t := by
  intro l₁
  induction l₁ with
  | nil =>
    intro l₂
    simp [List.isPrefixOf]
  | cons a as ih =>
    intro l₂
    cases l₂ with
    | nil =>
      simp [List.isPrefixOf]
    | cons b bs =>
      simp only [List.isPrefixOf, Bool.and_eq_true, beq_iff_eq, ih bs]
      constructor
      · rintro ⟨rfl, t, rfl⟩
        exact ⟨t, rfl⟩
      · rintro ⟨t, ht⟩
        injection ht with h1 h2
        exact ⟨h1.symm, t, h2⟩

theorem splitCharsAux_noSlash :
    ∀ (cs cur : List Char), '/' ∉ cur →
      ∀ p ∈ splitCharsAux cs cur, '/' ∉ p := by
  intro cs
  induction cs with
  | nil =>
    intro cur hcur p hp
    simp only [splitCharsAux, List.mem_singleton] at hp
    subst hp
    simpa using hcur
  | cons c cs ih =>
    intro cur hcur p hp
    simp only [splitCharsAux] at hp
    by_cases hc : c = '/'
    · rw [if_pos hc] at hp
      rcases List.mem_cons.mp hp with h | h
      · subst h
        simpa using hcur
      · exact ih [] (by simp) p h
    · rw [if_neg hc] at hp
      refine ih (c :: cur) ?_ p hp
      intro hmem
      rcases List.mem_cons.mp hmem with h | h
      · exact hc h.symm
      · exact hcur h

theorem splitSlash_noSlash (t : String) :
    ∀ p ∈ splitSlash t, '/' ∉ p.data := by
  intro p hp
  simp only [splitSlash, List.mem_map] at hp
  rcases hp with ⟨l, hl, rfl⟩
  exact splitCharsAux_noSlash t.data [] (by simp) l hl

theorem foldl_resolveStep_mem :
    ∀ (l acc : List String) (s : String), s ∈ List.foldl resolveStep acc l →
      s ∈ acc ∨ (s ∈ l ∧ s ≠ "") := by
  intro l
  induction l with
  | nil =>
    intro acc s h
    exact Or.inl h
  | cons x l ih =>
    intro acc s h
    rcases ih (resolveStep acc x) s h with h1 | h1
    · unfold resolveStep at h1
      by_cases hx : x = "" ∨ x = "."
      · rw [if_pos hx] at h1
        exact Or.inl h1
      · rw [if_neg hx] at h1
        by_cases hx2 : x = ".."
        · rw [if_pos hx2] at h1
          exact Or.inl (List.dropLast_subset acc h1)
        · rw [if_neg hx2] at h1
          rcases List.mem_append.mp h1 with h2 | h2
          · exact Or.inl h2
          · have hxs : s = x := by simpa using h2
            subst hxs
            refine Or.inr ⟨List.mem_cons_self _ _, ?_⟩
            intro hempty
            exact hx (Or.inl hempty)
    · exact Or.inr ⟨List.mem_cons_of_mem _ h1.1, h1.2⟩

theorem resolveSegs_mem {l : List String} {s : String} (h : s ∈ resolveSegs l) :
    s ∈ l ∧ s ≠ "" := by
  rcases foldl_resolveStep_mem l [] s h with h1 | h1
  · cases h1
  · exact h1

/-- A well-formed path segment: nonempty, without separators. -/
def wfSeg (s : String) : Prop := s.data ≠ [] ∧ '/' ∉ s.data

theorem wf_resolveSegs {l : List String} (hl : ∀ p ∈ l, '/' ∉ p.data) :
    ∀ s ∈ resolveSegs l, wfSeg s := by
  intro s hs
  rcases resolveSegs_mem hs with ⟨hmem, hne⟩
  refine ⟨?_, hl s hmem⟩
  intro hdata
  exact hne (strEmptyOfData hdata)

theorem wf_rootSegs (root : String) : ∀ s ∈ rootSegs root, wfSeg s :=
  wf_resolveSegs (splitSlash_noSlash root)

theorem wf_absSegs (root rel : String) : ∀ s ∈ absSegs root rel, wfSeg s := by
  apply wf_resolveSegs
  intro p hp
  rcases List.mem_append.mp hp with h | h
  · exact splitSlash_noSlash root p h
  · exact splitSlash_noSlash _ p h

/-- Two slash-free words followed by a separator match only segment by
segment. -/
theorem segSplitEq :
    ∀ (x : List Char), '/' ∉ x → ∀ (y : List Char), '/' ∉ y →
      ∀ (u v : List Char), x ++ '/' :: u = y ++ '/' :: v → x = y ∧ u = v := by
  intro x
  induction x with
  | nil =>
    intro _ y hy u v h
    cases y with
    | nil =>
      injection h with _ h2
      exact ⟨rfl, h2⟩
    | cons d y2 =>
      injection h with h1 _
      exact absurd (h1 ▸ List.mem_cons_self d y2) hy
  | cons c x2 ih =>
    intro hx y hy u v h
    cases y with
    | nil =>
      injection h with h1 _
      exact absurd (h1 ▸ List.mem_cons_self c x2) hx
    | cons d y2 =>
      injection h with h1 h2
      have hx2 : '/' ∉ x2 := fun hm => hx (List.mem_cons_of_mem _ hm)
      have hy2 : '/' ∉ y2 := fun hm => hy (List.mem_cons_of_mem _ hm)
      rcases ih hx2 y2 hy2 u v h2 with ⟨h3, h4⟩
      exact ⟨by rw [h1, h3], h4⟩

theorem absData_cons (s : String) (l : List String) :
    absData (s :: l) = '/' :: (s.data ++ absData l) := by
  simp [absData]

/-- If the rendering of `b` continues the rendering of `a` past a
separator, then `b` extends `a` segment-wise. -/
theorem absData_extension :
    ∀ (a : List String), (∀ s ∈ a, wfSeg s) →
      ∀ (b : List String), (∀ s ∈ b, wfSeg s) →
        ∀ t, absData b = absData a ++ '/' :: t → ∃ rest, b = a ++ rest := by
  intro a
  induction a with
  | nil =>
    intro _ b _ t _
    exact ⟨b, rfl⟩
  | cons s a2 ih =>
    intro ha b hb t h
    have hswf := ha s (List.mem_cons_self _ _)
    have ha2 : ∀ p ∈ a2, wfSeg p := fun p hp => ha p (List.mem_cons_of_mem _ hp)
    cases b with
    | nil =>
      rw [absData_cons] at h
      simp [absData] at h
    | cons u b2 =>
      have huwf := hb u (List.mem_cons_self _ _)
      have hb2 : ∀ p ∈ b2, wfSeg p := fun p hp => hb p (List.mem_cons_of_mem _ hp)
      rw [absData_cons, absData_cons, List.cons_append] at h
      injection h with _ h2
      cases b2 with
      | nil =>
        exfalso
        simp only [absData, List.flatMap_nil, List.append_nil] at h2
        exact huwf.2 (h2 ▸ List.mem_append_right _ (List.mem_cons_self '/' t))
      | cons w b3 =>
        rw [absData_cons] at h2
        rcases a2 with _ | ⟨v, a3⟩
        · simp only [absData, List.flatMap_nil, List.append_nil, List.nil_append] at h2 ⊢
          rcases segSplitEq u.data huwf.2 s.data hswf.2 _ _ h2 with ⟨hud, _⟩
          exact ⟨w :: b3, by rw [strEqOfData hud]; rfl⟩
        · rw [absData_cons, show (s.data ++ '/' :: (v.data ++ absData a3)) ++ '/' :: t =
                s.data ++ '/' :: (v.data ++ absData a3 ++ '/' :: t) by simp] at h2
          rcases segSplitEq u.data huwf.2 s.data hswf.2 _ _ h2 with ⟨hud, hrest⟩
          have hshift : absData (w :: b3) = absData (v :: a3) ++ '/' :: t := by
            rw [absData_cons, absData_cons, hrest]
            simp [List.append_assoc]
          rcases ih ha2 (w :: b3) hb2 t hshift with ⟨rest, hres⟩
          exact ⟨rest, by rw [strEqOfData hud, hres]; rfl⟩

/-- Rendering is injective on well-formed segment lists. -/
theorem absData_inj :
    ∀ (a : List String), (∀ s ∈ a, wfSeg s) →
      ∀ (b : List String), (∀ s ∈ b, wfSeg s) →
        absData a = absData b → a = b := by
  intro a
  induction a with
  | nil =>
    intro _ b hb h
    cases b with
    | nil => rfl
    | cons u b2 =>
      rw [absData_cons] at h
      simp [absData] at h
  | cons s a2 ih =>
    intro ha b hb h
    have hswf := ha s (List.mem_cons_self _ _)
    have ha2 : ∀ p ∈ a2, wfSeg p := fun p hp => ha p (List.mem_cons_of_mem _ hp)
    cases b with
    | nil =>
      rw [absData_cons] at h
      simp [absData] at h
    | cons u b2 =>
      have huwf := hb u (List.mem_cons_self _ _)
      have hb2 : ∀ p ∈ b2, wfSeg p := fun p hp => hb p (List.mem_cons_of_mem _ hp)
      rw [absData_cons, absData_cons] at h
      injection h with _ h2
      rcases a2 with _ | ⟨v, a3⟩ <;> rcases b2 with _ | ⟨w, b3⟩
      · simp only [absData, List.flatMap_nil, List.append_nil] at h2
        rw [strEqOfData h2]
      · exfalso
        rw [absData_cons] at h2
        simp only [absData, List.flatMap_nil, List.append_nil] at h2
        exact hswf.2 (h2 ▸ List.mem_append_right _ (List.mem_cons_self '/' _))
      · exfalso
        rw [absData_cons] at h2
        simp only [absData, List.flatMap_nil, List.append_nil] at h2
        exact huwf.2 (h2.symm ▸ List.mem_append_right _ (List.mem_cons_self '/' _))
      · rw [absData_cons, absData_cons] at h2
        rcases segSplitEq s.data hswf.2 u.data huwf.2 _ _ h2 with ⟨hud, hrest⟩
        have : v :: a3 = w :: b3 := by
          refine ih ha2 _ hb2 ?_
          rw [absData_cons, absData_cons, hrest]
        rw [strEqOfData hud, this]

/-- A rendered absolute path is never the empty string. -/
theorem renderAbs_data_ne_nil (l : List String) : (renderAbs l).data ≠ [] := by
  unfold renderAbs
  rcases l with _ | ⟨s, l2⟩
  · simp
  · rw [if_neg (by simp)]
    rw [absData_cons]
    simp

theorem renderAbs_nil : renderAbs [] = "/" := rfl

theorem renderAbs_cons (s : String) (l : List String) :
    renderAbs (s :: l) = String.mk (absData (s :: l)) := by
  unfold renderAbs
  rw [if_neg (List.cons_ne_nil s l)]

theorem renderAbs_nil_data : (renderAbs ([] : List String)).data = ['/'] := rfl

theorem renderAbs_cons_data (s : String) (l : List String) :
    (renderAbs (s :: l)).data = absData (s :: l) := by
  rw [renderAbs_cons]

theorem slashData : ("/" : String).data = ['/'] := rfl

/-- The string-level check of `safeJoin` implies segment-wise extension for
well-formed segment lists. -/
theorem renderCheck_extension (R A : List String)
    (hR : ∀ s ∈ R, wfSeg s) (hA : ∀ s ∈ A, wfSeg s)
    (hC : jsStartsWith (renderAbs A) (renderAbs R ++ "/") = true ∨
      renderAbs A = renderAbs R) :
    ∃ rest, A = R ++ rest := by
  rcases A with _ | ⟨u, A2⟩ <;> rcases R with _ | ⟨v, R2⟩
  · exact ⟨[], rfl⟩
  · exfalso
    have hvwf : wfSeg v := hR v (List.mem_cons_self _ _)
    rcases hC with hpre | heq
    · unfold jsStartsWith at hpre
      rcases (isPrefixOf_iff_append _ _).mp hpre with ⟨t, hdata⟩
      rw [String.data_append, slashData, renderAbs_nil_data, renderAbs_cons_data,
        absData_cons] at hdata
      have hlen := congrArg List.length hdata
      simp only [List.length_append, List.length_cons, List.length_singleton] at hlen
      omega
    · have hd := congrArg String.data heq
      rw [renderAbs_nil_data, renderAbs_cons_data, absData_cons] at hd
      injection hd with _ htl
      rcases List.append_eq_nil.mp htl.symm with ⟨hv, _⟩
      exact hvwf.1 hv
  · exfalso
    have huwf : wfSeg u := hA u (List.mem_cons_self _ _)
    rcases hC with hpre | heq
    · unfold jsStartsWith at hpre
      rcases (isPrefixOf_iff_append _ _).mp hpre with ⟨t, hdata⟩
      rw [String.data_append, slashData, renderAbs_nil_data, renderAbs_cons_data,
        absData_cons] at hdata
      have hd2 : u.data ++ absData A2 = '/' :: t := by
        rw [show (['/'] ++ ['/']) ++ t = ['/'] ++ '/' :: t by simp] at hdata
        injection hdata
      rcases hu : u.data with _ | ⟨c, cs⟩
      · exact huwf.1 hu
      · rw [hu] at hd2
        injection hd2 with hc _
        exact huwf.2 (by rw [hu, hc]; exact List.mem_cons_self _ _)
    · have hd := congrArg String.data heq
      rw [renderAbs_nil_data, renderAbs_cons_data, absData_cons] at hd
      injection hd with _ htl
      rcases List.append_eq_nil.mp htl with ⟨hu, _⟩
      exact huwf.1 hu
  · rcases hC with hpre | heq
    · unfold jsStartsWith at hpre
      rcases (isPrefixOf_iff_append _ _).mp hpre with ⟨t, hdata⟩
      rw [String.data_append, slashData, renderAbs_cons_data, renderAbs_cons_data] at hdata
      have hd2 : absData (u :: A2) = absData (v :: R2) ++ '/' :: t := by
        rw [hdata]
        simp
      exact absData_extension (v :: R2) hR (u :: A2) hA t hd2
    · have hd := congrArg String.data heq
      rw [renderAbs_cons_data, renderAbs_cons_data] at hd
      have := absData_inj (u :: A2) hA (v :: R2) hR hd
      exact ⟨[], by rw [this, List.append_nil]⟩

/-- A successful `safeJoin` returns the resolved join, and its segments
extend the resolved root segment-wise: the result never lies outside the
root subtree. -/
theorem safeJoin_some {root rel full : String} (h : safeJoin root rel = some full) :
    full = renderAbs (absSegs root rel) ∧
      ∃ rest, absSegs root rel = rootSegs root ++ rest := by
  unfold safeJoin at h
  dsimp only at h
  split at h
  case isFalse => cases h
  case isTrue hC =>
    injection h with h
    subst h
    exact ⟨rfl, renderCheck_extension (rootSegs root) (absSegs root rel)
      (wf_rootSegs root) (wf_absSegs root rel) hC⟩

/-- Resolving the empty relative path yields exactly the resolved root. -/
theorem absSegs_empty_rel (root : String) : absSegs root "" = rootSegs root := by
  unfold absSegs rootSegs
  have h1 : stripLeadingSlashes (backslashToSlash "") = "" := rfl
  rw [h1]
  show resolveSegs (splitSlash root ++ [""]) = resolveSegs (splitSlash root)
  unfold resolveSegs
  rw [List.foldl_append]
  rfl

theorem safeJoin_empty_rel (root : String) :
    safeJoin root "" = some (renderAbs (rootSegs root)) := by
  unfold safeJoin
  rw [absSegs_empty_rel]
  rw [if_pos (Or.inr rfl)]

/-! ### Helper lemmas: UTF-8 round trip -/

theorem utf8EncodeCharNat_ne_nil (n : Nat) : utf8EncodeCharNat n ≠ [] := by
  unfold utf8EncodeCharNat
  split_ifs <;> simp

theorem utf8DecodeOne_encodeChar (c : Char) (rest : List Nat) :
    utf8DecodeOne (utf8EncodeCharNat c.toNat ++ rest) = some (c, rest) := by
  have hval : c.toNat < 55296 ∨ (57343 < c.toNat ∧ c.toNat < 1114112) := c.valid
  set n := c.toNat with hn
  have hofn : Char.ofNat n = c := Char.ofNat_toNat c
  rcases Nat.lt_or_ge n 128 with h1 | h1
  · rw [show utf8EncodeCharNat n = [n] by rw [utf8EncodeCharNat, if_pos h1]]
    rw [List.cons_append, List.nil_append]
    unfold utf8DecodeOne
    dsimp only
    rw [if_pos h1, hofn]
  · rcases Nat.lt_or_ge n 2048 with h2 | h2
    · rw [show utf8EncodeCharNat n = [192 + n / 64, 128 + n % 64] by
        rw [utf8EncodeCharNat, if_neg (by omega), if_pos h2]]
      simp only [List.cons_append, List.nil_append]
      unfold utf8DecodeOne
      dsimp only
      rw [if_neg (by omega), if_neg (by omega), if_pos (by omega)]
      rw [if_pos (by omega : 128 ≤ 128 + n % 64 ∧ 128 + n % 64 < 192)]
      rw [show (192 + n / 64 - 192) * 64 + (128 + n % 64 - 128) = n by omega]
      rw [hofn]
    · rcases Nat.lt_or_ge n 65536 with h3 | h3
      · rw [show utf8EncodeCharNat n = [224 + n / 4096, 128 + (n / 64) % 64, 128 + n % 64] by
          rw [utf8EncodeCharNat, if_neg (by omega), if_neg (by omega), if_pos h3]]
        simp only [List.cons_append, List.nil_append]
        unfold utf8DecodeOne
        dsimp only
        rw [if_neg (by omega), if_neg (by omega), if_neg (by omega), if_pos (by omega)]
        rw [if_pos (by omega :
          128 ≤ 128 + (n / 64) % 64 ∧ 128 + (n / 64) % 64 < 192 ∧
            128 ≤ 128 + n % 64 ∧ 128 + n % 64 < 192)]
        rw [show (224 + n / 4096 - 224) * 4096 + (128 + (n / 64) % 64 - 128) * 64 +
              (128 + n % 64 - 128) = n by omega]
        rw [if_pos (by omega : 2048 ≤ n ∧ (n < 55296 ∨ 57343 < n))]
        rw [hofn]
      · rw [show utf8EncodeCharNat n =
            [240 + n / 262144, 128 + (n / 4096) % 64, 128 + (n / 64) % 64, 128 + n % 64] by
          rw [utf8EncodeCharNat, if_neg (by omega), if_neg (by omega), if_neg (by omega)]]
        simp only [List.cons_append, List.nil_append]
        unfold utf8DecodeOne
        dsimp only
        have hub : n < 1114112 := by omega
        rw [if_neg (by omega), if_neg (by omega), if_neg (by omega), if_neg (by omega),
          if_pos (by omega)]
        rw [if_pos (by omega :
          128 ≤ 128 + (n / 4096) % 64 ∧ 128 + (n / 4096) % 64 < 192 ∧
            128 ≤ 128 + (n / 64) % 64 ∧ 128 + (n / 64) % 64 < 192 ∧
            128 ≤ 128 + n % 64 ∧ 128 + n % 64 < 192)]
        rw [show (240 + n / 262144 - 240) * 262144 + (128 + (n / 4096) % 64 - 128) * 4096 +
              (128 + (n / 64) % 64 - 128) * 64 + (128 + n % 64 - 128) = n by omega]
        rw [if_pos (by omega : 65536 ≤ n ∧ n < 1114112)]
        rw [hofn]

theorem utf8DecodeListAux_chars (cs : List Char) :
    ∀ fuel : Nat,
      (cs.flatMap (fun c => utf8EncodeCharNat c.toNat)).length ≤ fuel →
        utf8DecodeListAux fuel (cs.flatMap (fun c => utf8EncodeCharNat c.toNat)) = some cs := by
  induction cs with
  | nil =>
    intro fuel _
    rw [List.flatMap_nil]
    cases fuel <;> rfl
  | cons c cs ih =>
    intro fuel hf
    rw [List.flatMap_cons] at hf ⊢
    have hne := utf8EncodeCharNat_ne_nil c.toNat
    rcases henc : utf8EncodeCharNat c.toNat with _ | ⟨b, ebs⟩
    · exact absurd henc hne
    rw [henc] at hf
    cases fuel with
    | zero =>
      exfalso
      simp only [List.cons_append, List.length_cons] at hf
      omega
    | succ f =>
      rw [List.cons_append]
      rw [utf8DecodeListAux]
      rw [show (b :: (ebs ++ cs.flatMap (fun c => utf8EncodeCharNat c.toNat))) =
        utf8EncodeCharNat c.toNat ++ cs.flatMap (fun c => utf8EncodeCharNat c.toNat) by
          rw [henc, List.cons_append]]
      rw [utf8DecodeOne_encodeChar]
      dsimp only
      have hlen : (cs.flatMap (fun c => utf8EncodeCharNat c.toNat)).length ≤ f := by
        simp only [List.cons_append, List.length_cons, List.length_append] at hf
        omega
      rw [ih f hlen]
      rfl

theorem utf8DecodeList_chars (cs : List Char) :
    utf8DecodeList (cs.flatMap (fun c => utf8EncodeCharNat c.toNat)) = some cs :=
  utf8DecodeListAux_chars cs _ (Nat.le_refl _)

theorem bufToUtf8_utf8Bytes (s : String) : bufToUtf8 (utf8Bytes s) = s := by
  unfold bufToUtf8 utf8Bytes
  rw [utf8DecodeList_chars]

/-! ### Helper lemmas: filesystem writes -/

theorem findChild_upsert (cs : List (String × FsNode)) (s : String) (c2 : FsNode) :
    findChild (upsertChild cs s c2) s = some c2 := by
  induction cs with
  | nil => simp [upsertChild, findChild]
  | cons nc rest ih =>
    rcases nc with ⟨n, c⟩
    unfold upsertChild
    by_cases hns : n = s
    · rw [if_pos hns]
      unfold findChild
      rw [if_pos hns]
    · rw [if_neg hns]
      unfold findChild
      rw [if_neg hns]
      exact ih

theorem findChild_append_of_none (cs : List (String × FsNode)) (s : String) (c : FsNode)
    (h : findChild cs s = none) : findChild (cs ++ [(s, c)]) s = some c := by
  induction cs with
  | nil => simp [findChild]
  | cons nc rest ih =>
    rcases nc with ⟨n, c0⟩
    rw [List.cons_append]
    simp only [findChild] at h ⊢
    by_cases hns : n = s
    · rw [if_pos hns] at h
      exact Option.noConfusion h
    · rw [if_neg hns] at h ⊢
      exact ih h

/-- After a successful `writeFileAt`, looking the path up yields the written
file. -/
theorem lookup_writeFileAt :
    ∀ (p : List String) (n n2 : FsNode) (d : List Nat),
      FsNode.writeFileAt n p d = some n2 → FsNode.lookup n2 p = some (FsNode.file d) := by
  intro p
  induction p with
  | nil =>
    intro n n2 d h
    cases n with
    | file d0 =>
      simp only [FsNode.writeFileAt] at h
      injection h with h
      subst h
      rfl
    | dir cs =>
      simp only [FsNode.writeFileAt] at h
      exact Option.noConfusion h
  | cons s rest ih =>
    intro n n2 d h
    cases n with
    | file d0 =>
      simp only [FsNode.writeFileAt] at h
      exact Option.noConfusion h
    | dir cs =>
      cases rest with
      | nil =>
        simp only [FsNode.writeFileAt] at h
        rcases hfc : findChild cs s with _ | ⟨c⟩ <;> rw [hfc] at h <;> (try dsimp only at h)
        · injection h with h
          subst h
          simp only [FsNode.lookup]
          rw [findChild_append_of_none cs s (FsNode.file d) hfc]
        · cases c with
          | file d1 =>
            dsimp only at h
            injection h with h
            subst h
            simp only [FsNode.lookup]
            rw [findChild_upsert]
          | dir cs1 =>
            dsimp only at h
            exact Option.noConfusion h
      | cons r rs =>
        simp only [FsNode.writeFileAt] at h
        rcases hfc : findChild cs s with _ | ⟨c⟩ <;> rw [hfc] at h <;> (try dsimp only at h)
        · exact Option.noConfusion h
        · rcases hw : FsNode.writeFileAt c (r :: rs) d with _ | ⟨c2⟩ <;>
            rw [hw] at h <;> (try dsimp only at h)
          · exact Option.noConfusion h
          · injection h with h
            subst h
            simp only [FsNode.lookup]
            rw [findChild_upsert]
            exact ih c c2 d hw

/-! ### Helper lemmas: entry ordering -/

theorem entryLe_trans (nameCmp : String → String → Int)
    (htrans : ∀ a b c, nameCmp a b ≤ 0 → nameCmp b c ≤ 0 → nameCmp a c ≤ 0) :
    ∀ a b c : Entry, entryLe nameCmp a b = true → entryLe nameCmp b c = true →
      entryLe nameCmp a c = true := by
  intro a b c hab hbc
  simp only [entryLe, decide_eq_true_eq] at hab hbc ⊢
  unfold entryCmp at hab hbc ⊢
  cases ta : a.type <;> cases tb : b.type <;> cases tc : c.type <;>
    rw [ta, tb] at hab <;> rw [tb, tc] at hbc <;>
    simp only [reduceCtorEq, reduceIte] at hab hbc ⊢ <;>
    first
      | exact htrans _ _ _ hab hbc
      | omega

theorem entryLe_total (nameCmp : String → String → Int)
    (htotal : ∀ a b, nameCmp a b ≤ 0 ∨ nameCmp b a ≤ 0) :
    ∀ a b : Entry, entryLe nameCmp a b || entryLe nameCmp b a := by
  intro a b
  simp only [entryLe, Bool.or_eq_true, decide_eq_true_eq]
  unfold entryCmp
  cases ta : a.type <;> cases tb : b.type <;>
    simp only [reduceCtorEq, reduceIte] <;>
    first
      | exact htotal _ _
      | omega

theorem lcCP_trans :
    ∀ a b c, localeCompareCP a b ≤ 0 → localeCompareCP b c ≤ 0 → localeCompareCP a c ≤ 0 := by
  have hle : ∀ a b : String, localeCompareCP a b ≤ 0 ↔ ¬ b < a := by
    intro a b
    unfold localeCompareCP
    split_ifs with h1 h2
    · simp [lt_asymm h1]
    · simp [h2]
    · simp [h2]
  intro a b c hab hbc
  rw [hle] at hab hbc ⊢
  intro hca
  exact hbc (lt_of_lt_of_le hca (not_lt.mp hab))

theorem lcCP_total : ∀ a b, localeCompareCP a b ≤ 0 ∨ localeCompareCP b a ≤ 0 := by
  have hle : ∀ a b : String, localeCompareCP a b ≤ 0 ↔ ¬ b < a := by
    intro a b
    unfold localeCompareCP
    split_ifs with h1 h2
    · simp [lt_asymm h1]
    · simp [h2]
    · simp [h2]
  intro a b
  rw [hle, hle]
  by_cases h : b < a
  · exact Or.inr (lt_asymm h)
  · exact Or.inl h

/-! ### Helper lemmas: download cancellation -/

theorem downloadDirStep_killed (sig : String) :
    ∀ evs : List DlEvent,
      evs.foldl downloadDirStep (ZipState.killed sig) = ZipState.killed sig := by
  intro evs
  induction evs with
  | nil => rfl
  | cons e tl ih =>
    cases e <;> exact ih

theorem downloadDirStep_not_running :
    ∀ (evs : List DlEvent) (z : ZipState), z ≠ ZipState.running →
      evs.foldl downloadDirStep z ≠ ZipState.running := by
  intro evs
  induction evs with
  | nil =>
    intro z hz
    exact hz
  | cons e tl ih =>
    intro z hz
    refine ih _ ?_
    cases z with
    | running => exact absurd rfl hz
    | exited => cases e <;> simp [downloadDirStep]
    | killed s => cases e <;> simp [downloadDirStep]

/-! ### Claim theorems -/

/-- Claim C1 counterexample: the claim says every relative path containing
`..` segments, backslash separators, or absolute overrides makes `safeJoin`
fail with PathTraversalError.  In fact `safeJoin` succeeds on all three
kinds of input whenever the resolved path stays inside the root: `..`
segments that do not escape resolve away, backslashes are rewritten to
separators, and leading slashes are silently stripped (clamped) rather
than rejected. -/
theorem claim_c1_counterexample :
    safeJoin "/data" "a/../b" = some "/data/b" ∧
    safeJoin "/data" "sub\\file.txt" = some "/data/sub/file.txt" ∧
    safeJoin "/data" "/etc/passwd" = some "/data/etc/passwd" := by
  refine ⟨?_, ?_, ?_⟩ <;> decide

/-- Claim C1 (amended): on every input on which `safeJoin` succeeds, the
returned absolute path equals the root's resolved absolute path or starts
with it followed by the separator, and segment-wise the result extends the
root — it is never a path outside the root.  Inputs containing `..`
segments, backslash separators or leading slashes may nonetheless succeed
when their cleaned resolution stays inside the root (leading slashes are
stripped rather than rejected); only resolutions that leave the root fail
with PathTraversalError. -/
theorem claim_c1_containment (root rel full : String)
    (h : safeJoin root rel = some full) :
    (full = renderAbs (rootSegs root) ∨
      ∃ t, full.data = (renderAbs (rootSegs root)).data ++ '/' :: t) ∧
    ∃ rest, absSegs root rel = rootSegs root ++ rest ∧
      full = renderAbs (rootSegs root ++ rest) := by
  obtain ⟨hfull, rest, hrest⟩ := safeJoin_some h
  refine ⟨?_, rest, hrest, by rw [hfull, hrest]⟩
  unfold safeJoin at h
  dsimp only at h
  split at h
  case isFalse => cases h
  case isTrue hC =>
    injection h with h
    subst h
    rcases hC with hpre | heq
    · right
      unfold jsStartsWith at hpre
      rcases (isPrefixOf_iff_append _ _).mp hpre with ⟨t, hdata⟩
      refine ⟨t, ?_⟩
      rw [hdata, String.data_append, slashData]
      simp
    · exact Or.inl heq

theorem claim_c1_containment_witness :
    ("/data/docs/a.txt" = renderAbs (rootSegs "/data") ∨
      ∃ t, ("/data/docs/a.txt").data = (renderAbs (rootSegs "/data")).data ++ '/' :: t) ∧
    ∃ rest, absSegs "/data" "docs/a.txt" = rootSegs "/data" ++ rest ∧
      "/data/docs/a.txt" = renderAbs (rootSegs "/data" ++ rest) :=
  claim_c1_containment "/data" "docs/a.txt" "/data/docs/a.txt" (by decide)

/-- Claim C9: for every root, resolving the empty relative path succeeds
(returns `some`, no exception escapes) and yields the root's own resolved
absolute path; for a canonical root string it is the root itself. -/
theorem claim_c9_empty_path (root : String) :
    safeJoin root "" = some (renderAbs (rootSegs root)) ∧
    (renderAbs (rootSegs root) = root → safeJoin root "" = some root) := by
  refine ⟨safeJoin_empty_rel root, fun hcanon => ?_⟩
  rw [safeJoin_empty_rel root, hcanon]

theorem claim_c9_empty_path_witness : safeJoin "/data" "" = some "/data" :=
  (claim_c9_empty_path "/data").2 (by decide)

/-- Claim C3 counterexample: the claim says a root id matching no
configured root makes resolution fail with NotFoundError.  In fact
`resolveRoot` falls back to the first configured root (src/index.js line
293: `|| fileRoots[0]`), returning a root rather than an error. -/
theorem claim_c3_counterexample :
    resolveRoot
      [⟨"default", "Default", "/var/lib/signalk/mydata-files"⟩,
       ⟨"extra-1", "USB", "/mnt/usb"⟩] (some "nope") =
      some ⟨"default", "Default", "/var/lib/signalk/mydata-files"⟩ := by
  decide

/-- Claim C3 (amended): when the root id is omitted, resolution returns the
first configured root; when the id matches no configured root it likewise
falls back to the first configured root — NotFoundError is never produced
(with zero configured roots resolution yields nothing and the request fails
in the handler's catch-all). -/
theorem claim_c3_fallback (roots : List FileRoot) (rid : String)
    (hnomatch : ∀ r ∈ roots, r.id ≠ rid) :
    resolveRoot roots none = roots.head? ∧
    resolveRoot roots (some rid) = roots.head? := by
  refine ⟨rfl, ?_⟩
  unfold resolveRoot
  dsimp only
  by_cases hempty : rid = ""
  · rw [if_pos hempty]
  · rw [if_neg hempty]
    have hfind : roots.find? (fun r => r.id = rid) = none := by
      apply List.find?_eq_none.mpr
      intro r hr
      simpa using hnomatch r hr
    rw [hfind]

theorem claim_c3_fallback_witness :
    resolveRoot [⟨"default", "Default", "/d"⟩] none = some ⟨"default", "Default", "/d"⟩ ∧
    resolveRoot [⟨"default", "Default", "/d"⟩] (some "nope") =
      some ⟨"default", "Default", "/d"⟩ :=
  claim_c3_fallback [⟨"default", "Default", "/d"⟩] "nope" (by decide)

/-- Claim C4: `delete` on a resolved directory holding at least one entry
fails with DirectoryNotEmptyError and leaves the filesystem unchanged;
on an empty directory or a file it succeeds and removes exactly that single
entry (`eraseAt` drops the addressed entry and nothing else — no recursive
deletion is performed, and files are removed unconditionally). -/
theorem claim_c4_delete_empty_only (roots : List FileRoot) (rootId : Option String)
    (fs : FsNode) (rel full : String) (root : FileRoot)
    (hrel : rel ≠ "")
    (hroot : resolveRoot roots rootId = some root)
    (hsafe : safeJoin root.path rel = some full) :
    (∀ cs, FsNode.lookup fs (pathSegs full) = some (FsNode.dir cs) → cs ≠ [] →
      filesDelete roots rootId fs rel = (Except.error ApiError.dirNotEmpty, fs)) ∧
    (FsNode.lookup fs (pathSegs full) = some (FsNode.dir []) →
      filesDelete roots rootId fs rel = (Except.ok (), FsNode.eraseAt fs (pathSegs full))) ∧
    (∀ d, FsNode.lookup fs (pathSegs full) = some (FsNode.file d) →
      filesDelete roots rootId fs rel = (Except.ok (), FsNode.eraseAt fs (pathSegs full))) := by
  refine ⟨?_, ?_, ?_⟩
  · intro cs hlook hne
    unfold filesDelete
    rw [if_neg hrel, hroot]
    dsimp only
    rw [hsafe]
    dsimp only
    rw [hlook]
    dsimp only
    rw [if_pos (by simpa using fun h0 => hne (List.length_eq_zero.mp h0))]
  · intro hlook
    unfold filesDelete
    rw [if_neg hrel, hroot]
    dsimp only
    rw [hsafe]
    dsimp only
    rw [hlook]
    dsimp only
    rw [if_neg (by simp)]
  · intro d hlook
    unfold filesDelete
    rw [if_neg hrel, hroot]
    dsimp only
    rw [hsafe]
    dsimp only
    rw [hlook]

theorem claim_c4_delete_empty_only_witness :
    filesDelete [⟨"default", "Default", "/data"⟩] none
        (FsNode.dir [("data", FsNode.dir
          [("full", FsNode.dir [("x.txt", FsNode.file [])])])]) "full" =
      (Except.error ApiError.dirNotEmpty,
        FsNode.dir [("data", FsNode.dir
          [("full", FsNode.dir [("x.txt", FsNode.file [])])])]) :=
  (claim_c4_delete_empty_only [⟨"default", "Default", "/data"⟩] none
      (FsNode.dir [("data", FsNode.dir
        [("full", FsNode.dir [("x.txt", FsNode.file [])])])]) "full" "/data/full"
      ⟨"default", "Default", "/data"⟩ (by decide) rfl (by decide)).1
    [("x.txt", FsNode.file [])] rfl (by simp)

/-- Claim C5: `read` on a resolved file whose size exceeds the 5 MiB
preview ceiling fails with FileTooLargeError regardless of the file's
extension or classification — no payload of any kind is returned. -/
theorem claim_c5_preview_ceiling (roots : List FileRoot) (rootId : Option String)
    (fs : FsNode) (rel full : String) (root : FileRoot) (data : List Nat)
    (hrel : rel ≠ "")
    (hroot : resolveRoot roots rootId = some root)
    (hsafe : safeJoin root.path rel = some full)
    (hlook : FsNode.lookup fs (pathSegs full) = some (FsNode.file data))
    (hsize : data.length > 5 * 1024 * 1024) :
    filesRead roots rootId fs rel = Except.error ApiError.fileTooLarge := by
  unfold filesRead
  rw [if_neg hrel, hroot]
  dsimp only
  rw [hsafe]
  dsimp only
  rw [hlook]
  dsimp only
  rw [if_pos hsize]

theorem claim_c5_preview_ceiling_witness :
    filesRead [⟨"default", "Default", "/data"⟩] none
        (FsNode.dir [("data", FsNode.dir
          [("big.bin", FsNode.file (List.replicate 6291456 0))])]) "big.bin" =
      Except.error ApiError.fileTooLarge :=
  claim_c5_preview_ceiling [⟨"default", "Default", "/data"⟩] none
    (FsNode.dir [("data", FsNode.dir
      [("big.bin", FsNode.file (List.replicate 6291456 0))])]) "big.bin"
    "/data/big.bin" ⟨"default", "Default", "/data"⟩ (List.replicate 6291456 0)
    (by decide) rfl (by decide) rfl
    (by rw [List.length_replicate]; norm_num)

/-- Claim C6: writing a path with a text extension with UTF-8 encoding and
content under the preview ceiling, then reading the same path, succeeds and
returns a Text preview whose payload is exactly the written content (the
stored UTF-8 bytes decoded back). -/
theorem claim_c6_write_read_roundtrip (roots : List FileRoot) (rootId : Option String)
    (fs fs2 : FsNode) (rel full : String) (root : FileRoot) (s : String)
    (hrel : rel ≠ "")
    (hroot : resolveRoot roots rootId = some root)
    (hsafe : safeJoin root.path rel = some full)
    (hext : TEXT_EXTS.contains (jsToLower (extname full)) = true)
    (hsize : (utf8Bytes s).length ≤ 5 * 1024 * 1024)
    (hw : filesWrite roots rootId fs rel s none = (Except.ok (), fs2)) :
    filesRead roots rootId fs2 rel =
      Except.ok (ReadOk.text (utf8Bytes s).length
        (mimeFor (jsToLower (extname full))) s) := by
  unfold filesWrite at hw
  rw [if_neg hrel, hroot] at hw
  dsimp only at hw
  rw [hsafe] at hw
  dsimp only at hw
  rw [if_neg (by simp : ¬(none : Option String) = some "base64")] at hw
  rcases he : FsNode.ensureDirP fs (pathSegs full).dropLast with _ | ⟨fs1⟩ <;>
    rw [he] at hw <;> (try dsimp only at hw)
  · exact absurd (congrArg Prod.fst hw) (by simp)
  rcases hwf : FsNode.writeFileAt fs1 (pathSegs full) (utf8Bytes s) with _ | ⟨fsw⟩ <;>
    rw [hwf] at hw <;> (try dsimp only at hw)
  · exact absurd (congrArg Prod.fst hw) (by simp)
  have hfs2 : fsw = fs2 := congrArg Prod.snd hw
  subst hfs2
  have hlook := lookup_writeFileAt (pathSegs full) fs1 fsw (utf8Bytes s) hwf
  unfold filesRead
  rw [if_neg hrel, hroot]
  dsimp only
  rw [hsafe]
  dsimp only
  rw [hlook]
  dsimp only
  rw [if_neg (by omega)]
  rw [hext]
  rw [if_neg (by simp)]
  rw [if_neg (by simp)]
  rw [bufToUtf8_utf8Bytes]

theorem claim_c6_write_read_roundtrip_witness :
    filesRead [⟨"default", "Default", "/data"⟩] none
        (FsNode.dir [("data", FsNode.dir
          [("notes.txt", FsNode.file (utf8Bytes "hello"))])]) "notes.txt" =
      Except.ok (ReadOk.text (utf8Bytes "hello").length
        (mimeFor (jsToLower (extname "/data/notes.txt"))) "hello") :=
  claim_c6_write_read_roundtrip [⟨"default", "Default", "/data"⟩] none
    (FsNode.dir [("data", FsNode.dir [])])
    (FsNode.dir [("data", FsNode.dir [("notes.txt", FsNode.file (utf8Bytes "hello"))])])
    "notes.txt" "/data/notes.txt" ⟨"default", "Default", "/data"⟩ "hello"
    (by decide) rfl (by decide) (by decide) (by decide) rfl

/-- Claim C10 (implicit): a write whose encoding field is absent or is any
string other than `"base64"` behaves exactly like the documented `utf8`
write — the content is stored as its UTF-8 bytes, the unrecognised value
causes no error of its own, and base64 decoding is never triggered. -/
theorem claim_c10_encoding_fallback (roots : List FileRoot) (rootId : Option String)
    (fs : FsNode) (rel content : String) (enc : Option String)
    (henc : enc ≠ some "base64") :
    filesWrite roots rootId fs rel content enc =
      filesWrite roots rootId fs rel content none ∧
    (∀ fs2, filesWrite roots rootId fs rel content enc = (Except.ok (), fs2) →
      ∃ root full, resolveRoot roots rootId = some root ∧
        safeJoin root.path rel = some full ∧
        FsNode.lookup fs2 (pathSegs full) = some (FsNode.file (utf8Bytes content))) := by
  have hdata : (if enc = some "base64" then base64DecodeStr content
        else utf8Bytes content) =
      (if (none : Option String) = some "base64" then base64DecodeStr content
        else utf8Bytes content) := by
    rw [if_neg henc, if_neg (by simp : ¬(none : Option String) = some "base64")]
  constructor
  · unfold filesWrite
    rw [hdata]
  · intro fs2 h
    unfold filesWrite at h
    rw [hdata, if_neg (by simp : ¬(none : Option String) = some "base64")] at h
    split at h
    · exact absurd (congrArg Prod.fst h) (by simp)
    case isFalse hrel =>
      rcases hr : resolveRoot roots rootId with _ | ⟨root⟩ <;>
        rw [hr] at h <;> (try dsimp only at h)
      · exact absurd (congrArg Prod.fst h) (by simp)
      rcases hs : safeJoin root.path rel with _ | ⟨full⟩ <;>
        rw [hs] at h <;> (try dsimp only at h)
      · exact absurd (congrArg Prod.fst h) (by simp)
      rcases he : FsNode.ensureDirP fs (pathSegs full).dropLast with _ | ⟨fs1⟩ <;>
        rw [he] at h <;> (try dsimp only at h)
      · exact absurd (congrArg Prod.fst h) (by simp)
      rcases hwf : FsNode.writeFileAt fs1 (pathSegs full) (utf8Bytes content)
          with _ | ⟨fsw⟩ <;> rw [hwf] at h <;> (try dsimp only at h)
      · exact absurd (congrArg Prod.fst h) (by simp)
      have hfs2 : fsw = fs2 := congrArg Prod.snd h
      subst hfs2
      exact ⟨root, full, rfl, hs, lookup_writeFileAt (pathSegs full) fs1 fsw _ hwf⟩

theorem claim_c10_encoding_fallback_witness :
    filesWrite [⟨"default", "Default", "/data"⟩] none (FsNode.dir [("data", FsNode.dir [])])
        "a.txt" "hi" (some "binary") =
      filesWrite [⟨"default", "Default", "/data"⟩] none (FsNode.dir [("data", FsNode.dir [])])
        "a.txt" "hi" none :=
  (claim_c10_encoding_fallback [⟨"default", "Default", "/data"⟩] none
    (FsNode.dir [("data", FsNode.dir [])]) "a.txt" "hi" (some "binary") (by decide)).1

theorem entryLe_imp (nameCmp : String → String → Int) (a b : Entry)
    (h : entryLe nameCmp a b = true) :
    (a.type = EntryType.file → b.type = EntryType.file) ∧
    (a.type = b.type → nameCmp a.name b.name ≤ 0) := by
  simp only [entryLe, decide_eq_true_eq] at h
  unfold entryCmp at h
  by_cases heq : a.type = b.type
  · rw [if_pos heq] at h
    exact ⟨fun ha => heq ▸ ha, fun _ => h⟩
  · rw [if_neg heq] at h
    by_cases hd : a.type = EntryType.dir
    · refine ⟨fun ha => ?_, fun hab => absurd hab heq⟩
      rw [ha] at hd
      exact absurd hd (by decide)
    · rw [if_neg hd] at h
      exact absurd h (by decide)

/-- Claim C2: every listing the `list` handler returns is ordered with all
directory entries before all file entries and, within each kind, by the
name collation; in particular a directory holding files `b.txt`, `a.txt`
and subdirectory `Z` lists exactly as `[Z, a.txt, b.txt]` (shown for the
code-point collation, with which every `localeCompare` locale agrees on
these all-lowercase names). -/
theorem claim_c2_listing_order (nameCmp : String → String → Int)
    (htrans : ∀ a b c, nameCmp a b ≤ 0 → nameCmp b c ≤ 0 → nameCmp a c ≤ 0)
    (htotal : ∀ a b, nameCmp a b ≤ 0 ∨ nameCmp b a ≤ 0) :
    (∀ roots rootId fs rel out fs1,
      filesList roots rootId fs rel nameCmp = (Except.ok out, fs1) →
        out.Pairwise (fun a b =>
          (a.type = EntryType.file → b.type = EntryType.file) ∧
          (a.type = b.type → nameCmp a.name b.name ≤ 0))) ∧
    filesList [⟨"default", "Default", "/data"⟩] none
      (FsNode.dir [("data", FsNode.dir
        [("b.txt", FsNode.file []), ("a.txt", FsNode.file []), ("Z", FsNode.dir [])])])
      "" localeCompareCP =
      (Except.ok
        [⟨"Z", EntryType.dir, none, none⟩,
         ⟨"a.txt", EntryType.file, some 0, none⟩,
         ⟨"b.txt", EntryType.file, some 0, none⟩],
       FsNode.dir [("data", FsNode.dir
        [("b.txt", FsNode.file []), ("a.txt", FsNode.file []), ("Z", FsNode.dir [])])]) := by
  constructor
  · intro roots rootId fs rel out fs1 h
    unfold filesList at h
    rcases hr : resolveRoot roots rootId with _ | ⟨root⟩ <;>
      rw [hr] at h <;> (try dsimp only at h)
    · exact absurd (congrArg Prod.fst h) (by simp)
    rcases hs : safeJoin root.path rel with _ | ⟨full⟩ <;>
      rw [hs] at h <;> (try dsimp only at h)
    · exact absurd (congrArg Prod.fst h) (by simp)
    rcases he : FsNode.ensureDirP fs (pathSegs full) with _ | ⟨fs2⟩ <;>
      rw [he] at h <;> (try dsimp only at h)
    · exact absurd (congrArg Prod.fst h) (by simp)
    rcases hl : FsNode.lookup fs2 (pathSegs full) with _ | ⟨node⟩ <;>
      rw [hl] at h <;> (try dsimp only at h)
    · exact absurd (congrArg Prod.fst h) (by simp)
    cases node with
    | file d => exact absurd (congrArg Prod.fst h) (by simp)
    | dir cs =>
      have h1 := congrArg Prod.fst h
      simp only [Prod.fst] at h1
      have hout : sortEntries nameCmp (cs.map (fun nc => statToEntry nc.1 nc.2)) = out := by
        injection h1
      subst hout
      exact (List.sorted_mergeSort (entryLe_trans nameCmp htrans)
        (entryLe_total nameCmp htotal) _).imp (fun hab => entryLe_imp nameCmp _ _ hab)
  · have hmain : filesList [⟨"default", "Default", "/data"⟩] none
        (FsNode.dir [("data", FsNode.dir
          [("b.txt", FsNode.file []), ("a.txt", FsNode.file []), ("Z", FsNode.dir [])])])
        "" localeCompareCP =
        (Except.ok (sortEntries localeCompareCP
          [⟨"b.txt", EntryType.file, some 0, none⟩,
           ⟨"a.txt", EntryType.file, some 0, none⟩,
           ⟨"Z", EntryType.dir, none, none⟩]),
         FsNode.dir [("data", FsNode.dir
          [("b.txt", FsNode.file []), ("a.txt", FsNode.file []), ("Z", FsNode.dir [])])]) :=
      rfl
    rw [hmain]
    rw [show sortEntries localeCompareCP
        [⟨"b.txt", EntryType.file, some 0, none⟩,
         ⟨"a.txt", EntryType.file, some 0, none⟩,
         ⟨"Z", EntryType.dir, none, none⟩] =
        [⟨"Z", EntryType.dir, none, none⟩,
         ⟨"a.txt", EntryType.file, some 0, none⟩,
         ⟨"b.txt", EntryType.file, some 0, none⟩] by
      simp +decide [sortEntries, List.mergeSort, List.splitInTwo, List.splitAt,
        List.splitAt.go, List.merge, entryLe, entryCmp, localeCompareCP]]

theorem claim_c2_listing_order_witness :
    filesList [⟨"default", "Default", "/data"⟩] none
      (FsNode.dir [("data", FsNode.dir
        [("b.txt", FsNode.file []), ("a.txt", FsNode.file []), ("Z", FsNode.dir [])])])
      "" localeCompareCP =
      (Except.ok
        [⟨"Z", EntryType.dir, none, none⟩,
         ⟨"a.txt", EntryType.file, some 0, none⟩,
         ⟨"b.txt", EntryType.file, some 0, none⟩],
       FsNode.dir [("data", FsNode.dir
        [("b.txt", FsNode.file []), ("a.txt", FsNode.file []), ("Z", FsNode.dir [])])]) :=
  (claim_c2_listing_order localeCompareCP lcCP_trans lcCP_total).2

/-- Claim C7: a file part whose destination cannot be resolved or created
is drained and discarded without touching the upload state, so the
remaining parts of the same request are processed from the unchanged
state; the request-level response is always a success; and in the concrete
two-file scenario where the first part's directory creation fails (a path
component exists as a regular file) and the second part's succeeds, the
response is `ok` with `saved` holding exactly the second file's relative
path. -/
theorem claim_c7_upload_isolation :
    (∀ (roots : List FileRoot) (st : UploadState) (fn : Option String) (d : List Nat),
      uploadDestFails roots st → processPart roots st (Part.filePart fn d) = st) ∧
    (∀ (roots : List FileRoot) (parts : List Part) (fs0 : FsNode),
      (uploadModel roots parts fs0).1.ok = true) ∧
    uploadModel [⟨"default", "Default", "/data"⟩]
      [Part.field "dir" "bad/sub", Part.filePart (some "a.txt") [1],
       Part.field "dir" "good", Part.filePart (some "b.txt") [2]]
      (FsNode.dir [("data", FsNode.dir [("bad", FsNode.file [])])]) =
      (⟨true, ["good/b.txt"]⟩,
       FsNode.dir [("data", FsNode.dir [("bad", FsNode.file []),
         ("good", FsNode.dir [("b.txt", FsNode.file [2])])])]) := by
  refine ⟨?_, ?_, ?_⟩
  · intro roots st fn d hfail
    unfold uploadDestFails at hfail
    unfold processPart
    dsimp only
    rcases hr : resolveRoot roots st.rootId with _ | ⟨root⟩
    · rfl
    rw [hr] at hfail
    dsimp only at hfail ⊢
    rcases hs : safeJoin root.path st.dirRel with _ | ⟨dirFull⟩
    · rfl
    rw [hs] at hfail
    dsimp only at hfail ⊢
    rw [hfail]
  · intro roots parts fs0
    rfl
  · rfl

theorem claim_c7_upload_isolation_witness :
    processPart [⟨"default", "Default", "/data"⟩]
        ⟨"bad/sub", none, [], FsNode.dir [("data", FsNode.dir [("bad", FsNode.file [])])]⟩
        (Part.filePart (some "a.txt") [1]) =
      ⟨"bad/sub", none, [], FsNode.dir [("data", FsNode.dir [("bad", FsNode.file [])])]⟩ :=
  claim_c7_upload_isolation.1 [⟨"default", "Default", "/data"⟩]
    ⟨"bad/sub", none, [], FsNode.dir [("data", FsNode.dir [("bad", FsNode.file [])])]⟩
    (some "a.txt") [1] rfl

/-- Claim C8: the directory-download handler ties the archiver to the
connection: dispatching the client-disconnect (`close`) event while the
archiver is still running kills it with SIGTERM, and after any event trace
containing the disconnect the archiver is never left running. -/
theorem claim_c8_download_cancel :
    (∀ pre post : List DlEvent,
      pre.foldl downloadDirStep ZipState.running = ZipState.running →
        downloadDirRun (pre ++ DlEvent.resClose :: post) = ZipState.killed "SIGTERM") ∧
    (∀ evs : List DlEvent, DlEvent.resClose ∈ evs →
      downloadDirRun evs ≠ ZipState.running) := by
  constructor
  · intro pre post hpre
    unfold downloadDirRun
    rw [List.foldl_append, hpre]
    show List.foldl downloadDirStep (downloadDirStep ZipState.running DlEvent.resClose) post =
      ZipState.killed "SIGTERM"
    exact downloadDirStep_killed "SIGTERM" post
  · intro evs hmem
    rcases List.append_of_mem hmem with ⟨pre, post, rfl⟩
    unfold downloadDirRun
    rw [List.foldl_append, List.foldl_cons]
    refine downloadDirStep_not_running _ _ ?_
    cases List.foldl downloadDirStep ZipState.running pre <;> simp [downloadDirStep]

theorem claim_c8_download_cancel_witness :
    downloadDirRun [DlEvent.resClose] = ZipState.killed "SIGTERM" :=
  claim_c8_download_cancel.1 [] [] rfl

end MyData
